import Mathlib

/-!
Verification of the audio player core (`src/main.rs`) against its design
specification.  The development shallowly embeds the Rust code:

* `pushSample` / `pushAll` embed `SampleCapturer::next`, the bounded capture
  ring buffer (a `VecDeque<f32>` with capacity 8192);
* `get_audio_samples` embeds `AudioPlayer::get_audio_samples`;
* `decayStep` embeds the idle-decay loop of `App::update_playback`;
* `analyzeAudio` embeds the bar-update passes of `App::analyze_audio`;
* `AudioPlayer` / `App` with `AudioPlayer.play`, `AudioPlayer.stop`,
  `App.play_track_at_index`, `App.play_next_track`, `App.toggle_playback`,
  `App.update_playback` embed the playback transport state machine;
* `nextSelection` / `prevSelection` embed the `App::next` / `App::previous`
  list-cursor arithmetic, with `usize` underflow made explicit;
* `freqStart` / `freqEnd` embed the logarithmic band-edge formula of
  `App::analyze_audio` over the reals.

Machine floats (`f32`) are idealised as `ℚ` in the state machine and as `ℝ`
for the transcendental band-edge formula.  External collaborators
(filesystem, decoder, FFT kernel) enter as explicit parameters.
-/

/-- Embeds `SampleCapturer::next` (src/main.rs:56-69): one push into the
shared capture buffer.  If the buffer already holds `maxSize` samples the
oldest is popped from the front, then the new sample is appended at the
back.  In the source `max_size` is fixed to 8192. -/
def pushSample (maxSize : ℕ) (buf : List ℚ) (s : ℚ) : List ℚ :=
  if maxSize ≤ buf.length then buf.tail ++ [s] else buf ++ [s]

/-- A whole sequence of pushes into an initially empty capture buffer. -/
def pushAll (maxSize : ℕ) (l : List ℚ) : List ℚ :=
  l.foldl (pushSample maxSize) []

/-- Embeds `AudioPlayer::get_audio_samples` (src/main.rs:203-206):
`buffer.iter().rev().take(count)` — reverse the buffer, then truncate to
`count` elements (newest first). -/
def get_audio_samples (buffer : List ℚ) (count : ℕ) : List ℚ :=
  buffer.reverse.take count

/-- Embeds the idle-decay loop of `App::update_playback` (src/main.rs:444-452):
each bar is multiplied by 0.9 and floored at 0.05. -/
def decayStep (x : ℚ) : ℚ :=
  let y := x * (9 / 10)
  if y < 1 / 20 then 1 / 20 else y

/-- Iterated idle decay: the bar value after `n` decay ticks. -/
def decayIter : ℕ → ℚ → ℚ
  | 0, x => x
  | n + 1, x => decayIter n (decayStep x)

/-- Embeds Rust `f32::clamp` as used in `App::analyze_audio`. -/
def rclamp (x lo hi : ℚ) : ℚ :=
  if x < lo then lo else if hi < x then hi else x

/-- Embeds the inner bin loop of `App::analyze_audio` (src/main.rs:506-513
and 542-548): accumulate the magnitude sum and bin count over
`binStart..binEnd`, skipping bins outside the FFT buffer.  `fm` lists the
magnitudes `sqrt(re^2 + im^2)` of the output bins of the external FFT
kernel. -/
def bandAccum (fm : List ℚ) (binStart binEnd : ℕ) : ℚ × ℕ :=
  (List.range' binStart (binEnd - binStart)).foldl
    (fun sc b =>
      match fm.get? b with
      | some m => (sc.1 + m, sc.2 + 1)
      | none => sc)
    (0, 0)

/-- First pass of `App::analyze_audio` (src/main.rs:489-519): the maximum
mean band magnitude, used for adaptive normalization.  `binRange i`
abstracts the float band-edge-to-bin conversion (its frequency part is
modelled exactly by `freqStart` / `freqEnd` below). -/
def maxBandMag (binRange : ℕ → ℕ × ℕ) (fm : List ℚ) (numBars : ℕ) : ℚ :=
  (List.range numBars).foldl
    (fun mm i =>
      let sc := bandAccum fm (binRange i).1 (binRange i).2
      if 0 < sc.2 then max mm (sc.1 / (sc.2 : ℚ)) else mm)
    0

/-- Second pass of `App::analyze_audio` (src/main.rs:529-570), one bar at a
time starting at bar index `i`: a bar whose band covers at least one bin is
normalized by `nf`, scaled by 0.8, compressed (`pc` abstracts the float
`powf(0.7)`), clamped to [0, 1], smoothed against the previous value
(0.7 / 0.3) and clamped to [0.05, 0.95]; a bar with zero bins keeps its
previous value. -/
def analyzeBars (binRange : ℕ → ℕ × ℕ) (pc : ℚ → ℚ) (fm : List ℚ)
    (nf : ℚ) : ℕ → List ℚ → List ℚ
  | _, [] => []
  | i, h :: rest =>
      (let sc := bandAccum fm (binRange i).1 (binRange i).2
       if 0 < sc.2 then
         rclamp
           (h * (7 / 10) +
             rclamp (pc (sc.1 / (sc.2 : ℚ) * nf * (8 / 10))) 0 1 * (3 / 10))
           (1 / 20) (19 / 20)
       else h) :: analyzeBars binRange pc fm nf (i + 1) rest

/-- Embeds `App::analyze_audio` (src/main.rs:455-571).  `samples` is the
snapshot `get_audio_samples buffer 2048`; if it is shorter than the
transform size 2048 the histogram is left unchanged.  The Hann window, the
FFT kernel and the square root are external real-valued primitives: their
composite output enters as the per-bin magnitude list `fm`. -/
def analyzeAudio (binRange : ℕ → ℕ × ℕ) (pc : ℚ → ℚ) (fm : List ℚ)
    (samples : List ℚ) (hist : List ℚ) : List ℚ :=
  if samples.length < 2048 then hist
  else
    let mm := maxBandMag binRange fm hist.length
    let nf := if 0 < mm then 1 / mm else 1
    analyzeBars binRange pc fm nf 0 hist

/-- The initial histogram of `App::new` (src/main.rs:248): `vec![0.1; 32]`. -/
def initialHistogram : List ℚ := List.replicate 32 (1 / 10)

/-- A directory listing entry as `App` sees it: `isParent` marks the `..`
pseudo-entry, `isDir` a subdirectory; `id` stands for the path. -/
structure Entry where
  id : ℕ
  isDir : Bool
  isParent : Bool
deriving DecidableEq

/-- The playability test used throughout `App`
(e.g. src/main.rs:339): `!path.is_dir() && path.file_name() != Some("..")`. -/
def Entry.playable (e : Entry) : Bool :=
  !e.isDir && !e.isParent

/-- What the decoder reports on a successfully opened track
(src/main.rs:144-145): the sample rate and the optional total duration. -/
structure TrackInfo where
  sampleRate : ℕ
  totalDuration : Option ℚ
deriving DecidableEq

/-- The state of `AudioPlayer` (src/main.rs:99-108): whether a sink is
installed, the volume, the shared capture buffer, the sample rate, the
`is_playing` flag, and the reported total duration (seconds). -/
structure AudioPlayer where
  sinkActive : Bool
  volume : ℚ
  buffer : List ℚ
  sampleRate : ℕ
  isPlayingFlag : Bool
  totalDuration : Option ℚ
deriving DecidableEq

/-- Embeds `AudioPlayer::play` (src/main.rs:127-162).  The old sink is
stopped and removed, the `is_playing` flag lowered and the capture buffer
cleared *before* the fallible sink creation / file open / decode steps,
whose outcome is the external parameter `decoded`.  On success the new
track's metadata is installed and a fresh sink starts playing. -/
def AudioPlayer.play (p : AudioPlayer) (decoded : Except String TrackInfo) :
    AudioPlayer × Except String Unit :=
  let p1 : AudioPlayer :=
    { p with sinkActive := false, isPlayingFlag := false, buffer := [] }
  match decoded with
  | .error e => (p1, .error e)
  | .ok info =>
      ({ p1 with
          sinkActive := true
          isPlayingFlag := true
          sampleRate := info.sampleRate
          totalDuration := info.totalDuration },
        .ok ())

/-- Embeds `AudioPlayer::stop` (src/main.rs:192-197): the sink is stopped
and removed and the flag lowered; the capture buffer is left untouched. -/
def AudioPlayer.stop (p : AudioPlayer) : AudioPlayer :=
  { p with sinkActive := false, isPlayingFlag := false }

/-- Embeds `AudioPlayer::is_playing` (src/main.rs:184-190): true iff a sink
exists and its queue is not empty; `queueEmpty` is the engine's report. -/
def AudioPlayer.is_playing (p : AudioPlayer) (queueEmpty : Bool) : Bool :=
  p.sinkActive && !queueEmpty

/-- The state of `App` (src/main.rs:214-230) restricted to the fields the
transport logic reads or writes.  Times are seconds as rationals;
`playback_start` is the recorded start instant; `listSelected` is
`list_state.selected()`. -/
structure App where
  items : List Entry
  listSelected : Option ℕ
  selected_track : Option Entry
  player : AudioPlayer
  is_playing : Bool
  current_time : ℚ
  total_time : ℚ
  playback_start : Option ℚ
  histogram : List ℚ
  error_message : Option String
  continuous_play : Bool
  current_track_index : Option ℕ
deriving DecidableEq

/-- Embeds `App::play_track_at_index` (src/main.rs:336-363).  On a
successful engine start, the transport fields are installed and the error
message cleared; on failure, only the error message is recorded (the engine
state keeps whatever `AudioPlayer::play` left behind). -/
def App.play_track_at_index (a : App) (index : ℕ)
    (decoded : Except String TrackInfo) (now : ℚ) : App :=
  match a.items.get? index with
  | none => a
  | some ent =>
      if ent.playable then
        let pr := AudioPlayer.play a.player decoded
        match pr.2 with
        | .ok _ =>
            { a with
                player := pr.1
                selected_track := some ent
                current_track_index := some index
                is_playing := true
                current_time := 0
                total_time := pr.1.totalDuration.getD 180
                playback_start := some now
                error_message := none }
        | .error e =>
            { a with
                player := pr.1
                error_message := some ("Errore riproduzione: " ++ e) }
      else a

/-- The scan loops of `App::play_next_track` (src/main.rs:365-388): the
first index in `[lo, hi)` holding a playable (non-directory, non-parent)
entry. -/
def findPlayable (items : List Entry) (lo hi : ℕ) : Option ℕ :=
  (List.range' lo (hi - lo)).find? fun i =>
    match items.get? i with
    | some ent => ent.playable
    | none => false

/-- Embeds `App::play_next_track` (src/main.rs:365-388): scan forward from
the current index; at the end of the list, wrap to the front only when
`continuous_play` is set; when nothing is played, lower the playing flag. -/
def App.play_next_track (a : App) (decoded : Except String TrackInfo)
    (now : ℚ) : App :=
  match a.current_track_index with
  | some ci =>
      match findPlayable a.items (ci + 1) a.items.length with
      | some i => a.play_track_at_index i decoded now
      | none =>
          if a.continuous_play then
            match findPlayable a.items 0 ci with
            | some i => a.play_track_at_index i decoded now
            | none => { a with is_playing := false }
          else { a with is_playing := false }
  | none => { a with is_playing := false }

/-- Embeds `App::toggle_playback` (src/main.rs:409-423).  When not playing
and a track is selected, the engine's restart result is discarded
(`let _ = self.audio_player.play(&track)`), the playing flag raised and the
start instant reset unconditionally. -/
def App.toggle_playback (a : App) (decoded : Except String TrackInfo)
    (now : ℚ) : App :=
  if a.selected_track.isSome then
    if a.is_playing then
      { a with player := a.player.stop, is_playing := false }
    else
      match a.selected_track with
      | some _ =>
          { a with
              player := (AudioPlayer.play a.player decoded).1
              is_playing := true
              playback_start := some now }
      | none => a
  else a

/-- The second half of `App::update_playback` (src/main.rs:434-452), run
after any auto-advance: if playing with a recorded start instant, recompute
the elapsed time (capped at the total) and run the spectral analysis;
otherwise, if not playing, decay the histogram. -/
def App.tickTail (a2 : App) (now : ℚ) (binRange : ℕ → ℕ × ℕ)
    (pc : ℚ → ℚ) (fm : List ℚ) : App :=
  if a2.is_playing && a2.playback_start.isSome then
    let elapsed := now - a2.playback_start.getD 0
    let ct := if a2.total_time < elapsed then a2.total_time else elapsed
    { a2 with
        current_time := ct
        histogram := analyzeAudio binRange pc fm
          (get_audio_samples a2.player.buffer 2048) a2.histogram }
  else if !a2.is_playing then
    { a2 with histogram := a2.histogram.map decayStep }
  else a2

/-- Embeds `App::update_playback` (src/main.rs:425-453).  `queueEmpty` is
the engine's queue report for this tick, `now` the current instant,
`decoded` the outcome of any auto-advance track open, and `binRange`, `pc`,
`fm` the external analysis primitives of `analyzeAudio`. -/
def App.update_playback (a : App) (queueEmpty : Bool)
    (decoded : Except String TrackInfo) (now : ℚ)
    (binRange : ℕ → ℕ × ℕ) (pc : ℚ → ℚ) (fm : List ℚ) : App :=
  let was := a.is_playing
  let isP := AudioPlayer.is_playing a.player queueEmpty
  let a1 := { a with is_playing := isP }
  let a2 :=
    if was && !isP && a.continuous_play then a1.play_next_track decoded now
    else a1
  a2.tickTail now binRange pc fm

/-- Rust `usize` subtraction: `none` models the underflow that panics in
debug builds. -/
def checkedSub (a b : ℕ) : Option ℕ :=
  if b ≤ a then some (a - b) else none

/-- Embeds `App::next` (src/main.rs:285-297) on `(items.len(), selected)`:
the newly selected index, or `none` when `items.len() - 1` underflows. -/
def nextSelection (len : ℕ) (selected : Option ℕ) : Option ℕ :=
  match selected with
  | some i => (checkedSub len 1).map fun last => if last ≤ i then 0 else i + 1
  | none => some 0

/-- Embeds `App::previous` (src/main.rs:299-311); `i - 1` with `i ≠ 0`
cannot underflow, while `items.len() - 1` (taken when `i = 0`) can. -/
def prevSelection (len : ℕ) (selected : Option ℕ) : Option ℕ :=
  match selected with
  | some i => if i = 0 then checkedSub len 1 else some (i - 1)
  | none => some 0

/-- A raw filesystem entry as `App::load_directory` classifies it: a
directory, or a file with the given extension (already lowercased, as the
source lowercases before comparing). -/
structure DirEntry where
  isDir : Bool
  ext : Option String
deriving DecidableEq

/-- The accepted audio extensions of `App::load_directory` (src/main.rs:275). -/
def audioExtensions : List String :=
  ["mp3", "flac", "wav", "ogg", "m4a", "opus"]

/-- The filter of `App::load_directory` (src/main.rs:266-279): keep
directories and files with an accepted audio extension. -/
def keepEntry (e : DirEntry) : Bool :=
  e.isDir ||
    match e.ext with
    | some x => audioExtensions.contains x
    | none => false

/-- The size of the list built by `App::load_directory` (src/main.rs:259-283):
a `..` pseudo-entry when the directory has a parent, plus the kept entries
(the final in-place sort does not change the count). -/
def loadDirectoryCount (hasParent : Bool) (entries : List DirEntry) : ℕ :=
  (if hasParent then 1 else 0) + (entries.filter keepEntry).length

/-- Embeds the band start frequency of `App::analyze_audio`
(src/main.rs:492-495): `min_freq * (max_freq / min_freq) ^ (i / numBars)`
with `min_freq = 60`, `max_freq = 16000`, over the reals. -/
noncomputable def freqStart (numBars i : ℕ) : ℝ :=
  60 * (16000 / 60 : ℝ) ^ ((i : ℝ) / (numBars : ℝ))

/-- Embeds the band end frequency of `App::analyze_audio`
(src/main.rs:496-497): the same formula at exponent `(i + 1) / numBars`. -/
noncomputable def freqEnd (numBars i : ℕ) : ℝ :=
  60 * (16000 / 60 : ℝ) ^ (((i : ℝ) + 1) / (numBars : ℝ))

/-- Three concrete playable entries, used to instantiate theorems. -/
def trackA : Entry := ⟨0, false, false⟩

/-- Second concrete playable entry. -/
def trackB : Entry := ⟨1, false, false⟩

/-- Third concrete playable entry. -/
def trackC : Entry := ⟨2, false, false⟩

/-- A concrete engine state with an active sink and a non-empty capture
buffer, used to instantiate theorems. -/
def busyPlayer : AudioPlayer :=
  { sinkActive := true
    volume := 1 / 2
    buffer := [1]
    sampleRate := 44100
    isPlayingFlag := true
    totalDuration := some 120 }

/-- A concrete app state: playing `trackC` (index 2) out of three playable
entries, 100 s elapsed of 120 s, used to instantiate theorems. -/
def baseApp : App :=
  { items := [trackA, trackB, trackC]
    listSelected := some 0
    selected_track := some trackC
    player := busyPlayer
    is_playing := true
    current_time := 100
    total_time := 120
    playback_start := some 5
    histogram := initialHistogram
    error_message := none
    continuous_play := true
    current_track_index := some 2 }

/-- A concrete idle app state: nothing playing, no sink, used to
instantiate theorems. -/
def idleApp : App :=
  { baseApp with
      is_playing := false
      player := { busyPlayer with sinkActive := false } }

lemma pushSample_length_le (C : ℕ) (hC : 0 < C) (buf : List ℚ) (s : ℚ)
    (hb : buf.length ≤ C) : (pushSample C buf s).length ≤ C := by
  unfold pushSample
  split
  · rename_i h
    cases buf with
    | nil => simp at h; omega
    | cons a bs => simp at hb ⊢; omega
  · rename_i h
    simp at h ⊢
    omega

lemma foldl_pushSample (C : ℕ) (hC : 0 < C) :
    ∀ (l b : List ℚ), b.length ≤ C →
      List.foldl (pushSample C) b l = (b ++ l).drop ((b ++ l).length - C) := by
  intro l
  induction l with
  | nil =>
      intro b hb
      simp [Nat.sub_eq_zero_of_le hb]
  | cons s l ih =>
      intro b hb
      have hstep := pushSample_length_le C hC b s hb
      have hrec := ih (pushSample C b s) hstep
      rw [List.foldl_cons, hrec]
      by_cases h : C ≤ b.length
      · have hbc : b.length = C := le_antisymm hb h
        have hps : pushSample C b s = b.tail ++ [s] := by
          unfold pushSample; rw [if_pos h]
        rw [hps]
        cases b with
        | nil => simp at hbc; omega
        | cons a bs =>
            have hbs : bs.length + 1 = C := by simpa using hbc
            have hlen : ((bs ++ [s]) ++ l).length - C = l.length := by
              simp; omega
            have hlen2 : ((a :: bs) ++ s :: l).length - C = l.length + 1 := by
              simp; omega
            rw [List.tail_cons, hlen, hlen2, List.cons_append,
              List.drop_succ_cons, List.append_assoc, List.singleton_append]
      · have hps : pushSample C b s = b ++ [s] := by
          unfold pushSample; rw [if_neg h]
        rw [hps]
        simp [List.append_assoc]

/-- C1 — For every sequence of N pushes into the sample ring buffer with
capacity C = 8192 (starting empty), the buffer afterwards is exactly the
last `min(N, C)` pushed samples in push order (`l.drop (l.length - 8192)`),
its length is `min N C`, and after every prefix of the push sequence the
length is at most C. -/
theorem ring_buffer_push_spec :
    ∀ l : List ℚ,
      pushAll 8192 l = l.drop (l.length - 8192)
      ∧ (pushAll 8192 l).length = min l.length 8192
      ∧ ∀ n : ℕ, (pushAll 8192 (l.take n)).length ≤ 8192 := by
  have key : ∀ l : List ℚ, pushAll 8192 l = l.drop (l.length - 8192) := by
    intro l
    have := foldl_pushSample 8192 (by norm_num) l [] (by simp)
    simpa [pushAll] using this
  have len : ∀ l : List ℚ, (pushAll 8192 l).length = min l.length 8192 := by
    intro l
    rw [key l, List.length_drop]
    omega
  intro l
  refine ⟨key l, len l, fun n => ?_⟩
  rw [len (l.take n)]
  omega

lemma reverse_take_eq_drop_reverse (l : List ℚ) (n : ℕ) :
    l.reverse.take n = (l.drop (l.length - n)).reverse := by
  induction l with
  | nil => simp
  | cons a t ih =>
      by_cases h : n ≤ t.length
      · have h1 : t.length + 1 - n = (t.length - n) + 1 := by omega
        rw [List.reverse_cons, List.take_append_of_le_length (by simpa using h),
          ih]
        simp only [List.length_cons, h1, List.drop_succ_cons]
      · have h1 : t.length + 1 - n = 0 := by omega
        rw [List.reverse_cons, List.take_of_length_le (by simp; omega)]
        simp [h1]

/-- C5 — For every buffer state and every requested count,
`get_audio_samples` returns exactly `min(count, buffer length)` samples, and
they are the most recently pushed samples, read back in
reverse-then-truncated order (newest first): the result equals the last
`min(count, length)` elements of the buffer, reversed. -/
theorem snapshot_spec :
    ∀ (buffer : List ℚ) (count : ℕ),
      (get_audio_samples buffer count).length = min count buffer.length
      ∧ get_audio_samples buffer count
          = (buffer.drop (buffer.length - count)).reverse := by
  intro buffer count
  constructor
  · simp [get_audio_samples]
  · exact reverse_take_eq_drop_reverse buffer count

lemma decayStep_eq_max (x : ℚ) : decayStep x = max (x * (9 / 10)) (1 / 20) := by
  show (if x * (9 / 10) < 1 / 20 then (1 : ℚ) / 20 else x * (9 / 10)) = _
  split
  · rename_i h
    exact (max_eq_right (le_of_lt h)).symm
  · rename_i h
    exact (max_eq_left (not_lt.mp h)).symm

lemma decayStep_floor (x : ℚ) : 1 / 20 ≤ decayStep x := by
  rw [decayStep_eq_max]
  exact le_max_right _ _

lemma decayIter_closed (n : ℕ) :
    ∀ x : ℚ, 1 / 20 ≤ x →
      decayIter n x = max (x * (9 / 10) ^ n) (1 / 20) := by
  induction n with
  | zero =>
      intro x hx
      simp only [decayIter, pow_zero, mul_one]
      exact (max_eq_left hx).symm
  | succ n ih =>
      intro x hx
      have hrec := ih (decayStep x) (decayStep_floor x)
      show decayIter n (decayStep x) = _
      rw [hrec, decayStep_eq_max,
        max_mul_of_nonneg _ _ (by positivity : (0:ℚ) ≤ (9 / 10) ^ n),
        max_assoc]
      have h1 : max (1 / 20 * (9 / 10) ^ n) (1 / 20 : ℚ) = 1 / 20 := by
        apply max_eq_right
        have : ((9:ℚ) / 10) ^ n ≤ 1 :=
          pow_le_one₀ (by norm_num) (by norm_num)
        nlinarith
      rw [h1]
      congr 1
      rw [pow_succ]
      ring

/-- C8 — When playback is not active, each tick of `App::update_playback`
maps every bar value x to `max(x * 0.9, 0.05)` (the whole histogram becomes
`map decayStep`); from 0.9, one tick lands at most at 0.81 and at least at
0.05; from any value at least 0.05 the per-bar sequence is non-increasing;
0.05 is a fixed point; and from any value in [0.05, 0.95] the value is
exactly 0.05 from the 28th tick on. -/
theorem idle_decay_spec :
    (∀ x : ℚ, decayStep x = max (x * (9 / 10)) (1 / 20))
    ∧ (∀ (a : App) (queueEmpty : Bool) (decoded : Except String TrackInfo)
        (now : ℚ) (binRange : ℕ → ℕ × ℕ) (pc : ℚ → ℚ) (fm : List ℚ),
        a.is_playing = false → a.player.sinkActive = false →
        (a.update_playback queueEmpty decoded now binRange pc fm).histogram
          = a.histogram.map decayStep)
    ∧ (decayStep (9 / 10) ≤ 81 / 100 ∧ 1 / 20 ≤ decayStep (9 / 10))
    ∧ (∀ x : ℚ, 1 / 20 ≤ x → decayStep x ≤ x)
    ∧ decayStep (1 / 20) = 1 / 20
    ∧ (∀ (x : ℚ) (n : ℕ), 1 / 20 ≤ x → x ≤ 19 / 20 → 28 ≤ n →
        decayIter n x = 1 / 20) := by
  refine ⟨decayStep_eq_max, ?_, ⟨by norm_num [decayStep], by norm_num [decayStep]⟩,
    ?_, by norm_num [decayStep], ?_⟩
  · intro a queueEmpty decoded now binRange pc fm hnp hsink
    simp [App.update_playback, App.tickTail, AudioPlayer.is_playing, hsink,
      hnp]
  · intro x hx
    rw [decayStep_eq_max]
    apply max_le _ hx
    nlinarith
  · intro x n hx hx2 hn
    rw [decayIter_closed n x hx]
    apply max_eq_right
    have h1 : ((9:ℚ) / 10) ^ n ≤ (9 / 10) ^ 28 :=
      pow_le_pow_of_le_one (by norm_num) (by norm_num) hn
    have h2 : x * (9 / 10) ^ n ≤ (19 / 20) * (9 / 10) ^ 28 := by
      have hp : (0:ℚ) ≤ (9 / 10) ^ n := by positivity
      nlinarith
    have h3 : ((19:ℚ) / 20) * (9 / 10) ^ 28 ≤ 1 / 20 := by norm_num
    linarith

/-- Witness for C8: concrete instantiations of the hypothesised parts of
`idle_decay_spec`. -/
theorem idle_decay_spec_witness :
    (idleApp.is_playing = false ∧ idleApp.player.sinkActive = false
      ∧ (idleApp.update_playback false (Except.error "e") 0 (fun _ => (0, 0))
          id []).histogram = idleApp.histogram.map decayStep)
    ∧ (1 / 20 ≤ (1 / 10 : ℚ) ∧ decayStep (1 / 10) ≤ 1 / 10)
    ∧ (1 / 20 ≤ (9 / 10 : ℚ) ∧ (9 / 10 : ℚ) ≤ 19 / 20 ∧ 28 ≤ 30
        ∧ decayIter 30 (9 / 10) = 1 / 20) := by
  refine ⟨⟨rfl, rfl, ?_⟩, ⟨by norm_num, ?_⟩, ⟨by norm_num, by norm_num,
    by norm_num, ?_⟩⟩
  · exact idle_decay_spec.2.1 idleApp false (Except.error "e") 0
      (fun _ => (0, 0)) id [] rfl rfl
  · exact idle_decay_spec.2.2.2.1 (1 / 10) (by norm_num)
  · exact idle_decay_spec.2.2.2.2.2 (9 / 10) 30 (by norm_num) (by norm_num)
      (by norm_num)

lemma rclamp_bounds (x lo hi : ℚ) (h : lo ≤ hi) :
    lo ≤ rclamp x lo hi ∧ rclamp x lo hi ≤ hi := by
  unfold rclamp
  split
  · exact ⟨le_refl lo, h⟩
  · rename_i h1
    split
    · exact ⟨h, le_refl hi⟩
    · rename_i h2
      exact ⟨not_lt.mp h1, not_lt.mp h2⟩

lemma analyzeBars_bounds (binRange : ℕ → ℕ × ℕ) (pc : ℚ → ℚ) (fm : List ℚ)
    (nf : ℚ) :
    ∀ (hist : List ℚ) (i : ℕ),
      (∀ x ∈ hist, 1 / 20 ≤ x ∧ x ≤ 19 / 20) →
      ∀ x ∈ analyzeBars binRange pc fm nf i hist,
        1 / 20 ≤ x ∧ x ≤ 19 / 20 := by
  intro hist
  induction hist with
  | nil =>
      intro i h x hx
      simp [analyzeBars] at hx
  | cons hd rest ih =>
      intro i h x hx
      simp only [analyzeBars] at hx
      by_cases hc : 0 < (bandAccum fm (binRange i).1 (binRange i).2).2
      · rw [if_pos hc] at hx
        rcases List.mem_cons.mp hx with h1 | h2
        · subst h1
          exact rclamp_bounds _ _ _ (by norm_num)
        · exact ih (i + 1) (fun y hy => h y (List.mem_cons_of_mem hd hy)) x h2
      · rw [if_neg hc] at hx
        rcases List.mem_cons.mp hx with h1 | h2
        · rw [h1]
          exact h hd (List.mem_cons_self hd rest)
        · exact ih (i + 1) (fun y hy => h y (List.mem_cons_of_mem hd hy)) x h2

lemma analyzeBars_get_of_zero (binRange : ℕ → ℕ × ℕ) (pc : ℚ → ℚ)
    (fm : List ℚ) (nf : ℚ) :
    ∀ (hist : List ℚ) (i j : ℕ),
      (bandAccum fm (binRange (i + j)).1 (binRange (i + j)).2).2 = 0 →
      (analyzeBars binRange pc fm nf i hist).get? j = hist.get? j := by
  intro hist
  induction hist with
  | nil =>
      intro i j hc
      simp [analyzeBars]
  | cons hd rest ih =>
      intro i j hc
      cases j with
      | zero =>
          rw [Nat.add_zero] at hc
          simp only [analyzeBars, List.get?_cons_zero]
          rw [if_neg (by omega)]
      | succ j =>
          simp only [analyzeBars, List.get?_cons_succ]
          apply ih (i + 1) j
          have he : i + 1 + j = i + (j + 1) := by omega
          rw [he]
          exact hc

lemma play_track_at_index_histogram (a : App) (index : ℕ)
    (decoded : Except String TrackInfo) (now : ℚ) :
    (a.play_track_at_index index decoded now).histogram = a.histogram := by
  unfold App.play_track_at_index
  cases hg : a.items.get? index with
  | none => rfl
  | some ent =>
      by_cases hp : ent.playable
      · simp only [if_pos hp]
        cases h2 : (AudioPlayer.play a.player decoded).2 with
        | error e => simp [h2]
        | ok u => simp [h2]
      · simp [hp]

lemma play_next_track_histogram (a : App)
    (decoded : Except String TrackInfo) (now : ℚ) :
    (a.play_next_track decoded now).histogram = a.histogram := by
  unfold App.play_next_track
  cases h0 : a.current_track_index with
  | none => rfl
  | some ci =>
      cases h1 : findPlayable a.items (ci + 1) a.items.length with
      | some i =>
          simp only [h1]
          simp [play_track_at_index_histogram]
      | none =>
          simp only [h1]
          by_cases hc : a.continuous_play
          · simp only [if_pos hc]
            cases h2 : findPlayable a.items 0 ci with
            | some i =>
                simp only [h2]
                simp [play_track_at_index_histogram]
            | none => simp only [h2]
          · simp [hc]

lemma tickTail_histogram_bounds (b : App) (now : ℚ)
    (binRange : ℕ → ℕ × ℕ) (pc : ℚ → ℚ) (fm : List ℚ)
    (h : ∀ x ∈ b.histogram, 1 / 20 ≤ x ∧ x ≤ 19 / 20)
    (hB : ∀ (samples hist : List ℚ),
      (∀ x ∈ hist, 1 / 20 ≤ x ∧ x ≤ 19 / 20) →
      ∀ x ∈ analyzeAudio binRange pc fm samples hist,
        1 / 20 ≤ x ∧ x ≤ 19 / 20)
    (hD : ∀ hist : List ℚ, (∀ x ∈ hist, 1 / 20 ≤ x ∧ x ≤ 19 / 20) →
      ∀ x ∈ hist.map decayStep, 1 / 20 ≤ x ∧ x ≤ 19 / 20) :
    ∀ x ∈ (b.tickTail now binRange pc fm).histogram,
      1 / 20 ≤ x ∧ x ≤ 19 / 20 := by
  unfold App.tickTail
  split
  · exact hB _ _ h
  · split
    · exact hD _ h
    · exact h

lemma analyzeAudio_bounds (binRange : ℕ → ℕ × ℕ) (pc : ℚ → ℚ)
    (fm samples hist : List ℚ)
    (h : ∀ x ∈ hist, 1 / 20 ≤ x ∧ x ≤ 19 / 20) :
    ∀ x ∈ analyzeAudio binRange pc fm samples hist,
      1 / 20 ≤ x ∧ x ≤ 19 / 20 := by
  unfold analyzeAudio
  split
  · exact h
  · exact analyzeBars_bounds binRange pc fm _ hist 0 h

lemma map_decayStep_bounds (hist : List ℚ)
    (h : ∀ x ∈ hist, 1 / 20 ≤ x ∧ x ≤ 19 / 20) :
    ∀ x ∈ hist.map decayStep, 1 / 20 ≤ x ∧ x ≤ 19 / 20 := by
  intro x hx
  rcases List.mem_map.mp hx with ⟨y, hy, rfl⟩
  rcases h y hy with ⟨hy1, hy2⟩
  refine ⟨decayStep_floor y, ?_⟩
  rw [decayStep_eq_max]
  apply max_le _ (by norm_num)
  nlinarith

/-- C2 — After any analysis tick (for every abstracted FFT magnitude list,
bin-range map, compression function and sample snapshot) and after any
decay tick — and hence after any full `App::update_playback` tick — every
histogram bar lies within [0.05, 0.95], provided every bar lay within that
range before; a bar whose band covers zero bins keeps its previous value;
the initial histogram is 32 bars of 0.1, all within range. -/
theorem spectrum_bars_within_range :
    (∀ (binRange : ℕ → ℕ × ℕ) (pc : ℚ → ℚ) (fm samples hist : List ℚ),
        (∀ x ∈ hist, 1 / 20 ≤ x ∧ x ≤ 19 / 20) →
        ∀ x ∈ analyzeAudio binRange pc fm samples hist,
          1 / 20 ≤ x ∧ x ≤ 19 / 20)
    ∧ (∀ hist : List ℚ, (∀ x ∈ hist, 1 / 20 ≤ x ∧ x ≤ 19 / 20) →
        ∀ x ∈ hist.map decayStep, 1 / 20 ≤ x ∧ x ≤ 19 / 20)
    ∧ (∀ (a : App) (queueEmpty : Bool) (decoded : Except String TrackInfo)
        (now : ℚ) (binRange : ℕ → ℕ × ℕ) (pc : ℚ → ℚ) (fm : List ℚ),
        (∀ x ∈ a.histogram, 1 / 20 ≤ x ∧ x ≤ 19 / 20) →
        ∀ x ∈ (a.update_playback queueEmpty decoded now binRange pc
            fm).histogram,
          1 / 20 ≤ x ∧ x ≤ 19 / 20)
    ∧ (∀ (binRange : ℕ → ℕ × ℕ) (pc : ℚ → ℚ) (fm samples hist : List ℚ)
        (i : ℕ),
        (bandAccum fm (binRange i).1 (binRange i).2).2 = 0 →
        (analyzeAudio binRange pc fm samples hist).get? i = hist.get? i)
    ∧ initialHistogram = List.replicate 32 (1 / 10)
    ∧ (∀ x ∈ initialHistogram, 1 / 20 ≤ x ∧ x ≤ 19 / 20) := by
  refine ⟨analyzeAudio_bounds, map_decayStep_bounds, ?_, ?_, rfl, ?_⟩
  · intro a queueEmpty decoded now binRange pc fm h
    unfold App.update_playback
    apply tickTail_histogram_bounds _ _ _ _ _ _
      (analyzeAudio_bounds binRange pc fm) map_decayStep_bounds
    split
    · rw [play_next_track_histogram]
      simpa using h
    · simpa using h
  · intro binRange pc fm samples hist i hc
    unfold analyzeAudio
    split
    · rfl
    · apply analyzeBars_get_of_zero binRange pc fm _ hist 0 i
      simpa using hc
  · intro x hx
    rcases List.eq_of_mem_replicate hx with rfl
    norm_num

/-- Witness for C2: concrete instantiations of the hypothesised parts of
`spectrum_bars_within_range`. -/
theorem spectrum_bars_within_range_witness :
    ((∀ x ∈ ([1 / 10] : List ℚ), 1 / 20 ≤ x ∧ x ≤ 19 / 20)
      ∧ ∀ x ∈ analyzeAudio (fun _ => (0, 0)) id [] [] [1 / 10],
          1 / 20 ≤ x ∧ x ≤ 19 / 20)
    ∧ (∀ x ∈ ([1 / 10] : List ℚ).map decayStep, 1 / 20 ≤ x ∧ x ≤ 19 / 20)
    ∧ ((∀ x ∈ baseApp.histogram, 1 / 20 ≤ x ∧ x ≤ 19 / 20)
      ∧ ∀ x ∈ (baseApp.update_playback true (Except.error "e") 0
            (fun _ => (0, 0)) id []).histogram,
          1 / 20 ≤ x ∧ x ≤ 19 / 20)
    ∧ ((bandAccum [] ((fun _ => ((0 : ℕ), (0 : ℕ))) 0).1
          ((fun _ => ((0 : ℕ), (0 : ℕ))) 0).2).2 = 0
      ∧ (analyzeAudio (fun _ => (0, 0)) id [] [] [1 / 10]).get? 0
          = ([1 / 10] : List ℚ).get? 0) := by
  have hb : ∀ x ∈ ([1 / 10] : List ℚ), 1 / 20 ≤ x ∧ x ≤ 19 / 20 := by
    intro x hx
    rw [List.mem_singleton.mp hx]
    norm_num
  have hbase : ∀ x ∈ baseApp.histogram, 1 / 20 ≤ x ∧ x ≤ 19 / 20 := by
    intro x hx
    rcases List.eq_of_mem_replicate hx with rfl
    norm_num
  refine ⟨⟨hb, ?_⟩, ?_, ⟨hbase, ?_⟩, rfl, ?_⟩
  · exact spectrum_bars_within_range.1 (fun _ => (0, 0)) id [] [] [1 / 10] hb
  · exact spectrum_bars_within_range.2.1 [1 / 10] hb
  · exact spectrum_bars_within_range.2.2.1 baseApp true (Except.error "e") 0
      (fun _ => (0, 0)) id [] hbase
  · exact spectrum_bars_within_range.2.2.2.1 (fun _ => (0, 0)) id [] []
      [1 / 10] 0 rfl

/-- C3 counterexample — on the end-of-track tick with `continuous_play`
off, the elapsed time is NOT reset: starting from 100 s elapsed
(`baseApp`), after the tick it is still 100 s, not 0. -/
theorem end_of_track_no_elapsed_reset :
    (App.update_playback { baseApp with continuous_play := false } true
        (Except.error "e") 0 (fun _ => (0, 0)) id []).current_time = 100
    ∧ (100 : ℚ) ≠ 0 := by
  constructor
  · rfl
  · norm_num

/-- C3 (amended) — On the end-of-track tick (previously playing, engine
queue now empty) while the current track is the last playable entry (C at
index 2 of playable [A, B, C]): with `continuous_play` on and a successful
open, the transport wraps to play entry A at index 0; with
`continuous_play` off the transport stops playing and
`current_track_index` stays 2, but the elapsed time is NOT reset — it
keeps its previous value. -/
theorem end_of_track_sequencing
    (info : TrackInfo) (sel : Option ℕ) (strack : Option Entry) (vol : ℚ)
    (buf : List ℚ) (sr : ℕ) (td : Option ℚ) (ct0 tt0 : ℚ) (ps : Option ℚ)
    (hist : List ℚ) (err : Option String) (now : ℚ)
    (binRange : ℕ → ℕ × ℕ) (pc : ℚ → ℚ) (fm : List ℚ)
    (decoded : Except String TrackInfo) :
    (let a : App :=
        { items := [trackA, trackB, trackC], listSelected := sel,
          selected_track := strack,
          player := { sinkActive := true, volume := vol, buffer := buf,
                      sampleRate := sr, isPlayingFlag := true,
                      totalDuration := td },
          is_playing := true, current_time := ct0, total_time := tt0,
          playback_start := ps, histogram := hist, error_message := err,
          continuous_play := true, current_track_index := some 2 }
      let r := a.update_playback true (Except.ok info) now binRange pc fm
      r.current_track_index = some 0 ∧ r.is_playing = true
        ∧ r.selected_track = some trackA)
    ∧ (let a : App :=
        { items := [trackA, trackB, trackC], listSelected := sel,
          selected_track := strack,
          player := { sinkActive := true, volume := vol, buffer := buf,
                      sampleRate := sr, isPlayingFlag := true,
                      totalDuration := td },
          is_playing := true, current_time := ct0, total_time := tt0,
          playback_start := ps, histogram := hist, error_message := err,
          continuous_play := false, current_track_index := some 2 }
      let r := a.update_playback true decoded now binRange pc fm
      r.is_playing = false ∧ r.current_track_index = some 2
        ∧ r.current_time = ct0) := by
  have h33 : findPlayable [trackA, trackB, trackC] 3 3 = none := by decide
  have h02 : findPlayable [trackA, trackB, trackC] 0 2 = some 0 := by decide
  have hpA : trackA.playable = true := by decide
  constructor
  · simp [App.update_playback, App.tickTail, App.play_next_track, h33, h02,
      hpA, App.play_track_at_index, AudioPlayer.is_playing, AudioPlayer.play]
  · simp [App.update_playback, App.tickTail, AudioPlayer.is_playing]

/-- C4 counterexample — a failing track start does NOT leave the prior
playback untouched: starting from an actively playing engine (`busyPlayer`,
sink active, buffer [1]), after the failed start the sink is gone and the
capture buffer empty, so the previously playing audio has been stopped. -/
theorem track_failure_stops_prior_audio :
    baseApp.player.sinkActive = true ∧ baseApp.player.buffer = [1]
    ∧ (baseApp.play_track_at_index 0 (Except.error "boom")
        7).player.sinkActive = false
    ∧ (baseApp.play_track_at_index 0 (Except.error "boom") 7).player.buffer
        = [] := by
  exact ⟨rfl, rfl, rfl, rfl⟩

/-- C4 (amended) — If starting a selected playable track fails, every
App-level transport field is preserved and a human-readable error message
is recorded, and the message is cleared by the next successful start; the
engine, however, has already been torn down by the attempt (old sink
stopped and removed, flag lowered, capture buffer cleared), so previously
playing audio does not continue. -/
theorem track_failure_preserves_transport
    (a : App) (i : ℕ) (ent : Entry) (e : String) (info : TrackInfo) (now : ℚ)
    (hget : a.items.get? i = some ent) (hp : ent.playable = true) :
    (let r := a.play_track_at_index i (Except.error e) now
     r.selected_track = a.selected_track
       ∧ r.current_track_index = a.current_track_index
       ∧ r.is_playing = a.is_playing
       ∧ r.current_time = a.current_time
       ∧ r.total_time = a.total_time
       ∧ r.playback_start = a.playback_start
       ∧ r.continuous_play = a.continuous_play
       ∧ r.items = a.items
       ∧ r.error_message = some ("Errore riproduzione: " ++ e)
       ∧ r.player.sinkActive = false
       ∧ r.player.isPlayingFlag = false
       ∧ r.player.buffer = [])
    ∧ (a.play_track_at_index i (Except.ok info) now).error_message
        = none := by
  rw [List.get?_eq_getElem?] at hget
  constructor
  · simp [App.play_track_at_index, hget, hp, AudioPlayer.play]
  · simp [App.play_track_at_index, hget, hp, AudioPlayer.play]

/-- Witness for C4: the amended statement instantiated on `baseApp`,
failing to start track A at index 0. -/
theorem track_failure_preserves_transport_witness :
    baseApp.items.get? 0 = some trackA ∧ trackA.playable = true
    ∧ ((let r := baseApp.play_track_at_index 0 (Except.error "x") 0
        r.selected_track = baseApp.selected_track
          ∧ r.current_track_index = baseApp.current_track_index
          ∧ r.is_playing = baseApp.is_playing
          ∧ r.current_time = baseApp.current_time
          ∧ r.total_time = baseApp.total_time
          ∧ r.playback_start = baseApp.playback_start
          ∧ r.continuous_play = baseApp.continuous_play
          ∧ r.items = baseApp.items
          ∧ r.error_message = some ("Errore riproduzione: " ++ "x")
          ∧ r.player.sinkActive = false
          ∧ r.player.isPlayingFlag = false
          ∧ r.player.buffer = [])
      ∧ (baseApp.play_track_at_index 0
          (Except.ok ⟨44100, some 60⟩) 0).error_message = none) :=
  ⟨rfl, rfl,
    track_failure_preserves_transport baseApp 0 trackA "x" ⟨44100, some 60⟩ 0
      rfl rfl⟩

/-- C7 counterexample — `AudioPlayer::stop` does not clear the capture
buffer: stopping `busyPlayer` (whose buffer is [1]) leaves the buffer
equal to [1], not empty. -/
theorem stop_keeps_buffer :
    busyPlayer.buffer = [1] ∧ (AudioPlayer.stop busyPlayer).buffer = [1]
    ∧ (AudioPlayer.stop busyPlayer).buffer ≠ [] := by
  refine ⟨rfl, rfl, ?_⟩
  decide

/-- C7 (amended) — The capture buffer is cleared on every track change:
`AudioPlayer::play` empties it (before any of the new track's samples
arrive) whether the open succeeds or fails, so no stale samples can bleed
into the next track's first analysis frames; `AudioPlayer::stop` however
leaves the buffer untouched (it is cleared only by the next play). -/
theorem clear_on_play_not_stop :
    (∀ (p : AudioPlayer) (decoded : Except String TrackInfo),
        (AudioPlayer.play p decoded).1.buffer = [])
    ∧ ∀ p : AudioPlayer, (AudioPlayer.stop p).buffer = p.buffer := by
  constructor
  · intro p decoded
    cases decoded <;> rfl
  · intro p
    rfl

/-- C9 — With an empty entry list (reachable: a parentless directory with
no subdirectories and no accepted audio files yields zero items) and the
startup selection Some 0, both cursor moves evaluate `items.len() - 1` on
an unsigned length of 0 and underflow (`none`, a panic in debug builds);
for every non-empty list no underflow occurs. -/
theorem empty_list_cursor_underflow :
    loadDirectoryCount false [] = 0
    ∧ nextSelection 0 (some 0) = none
    ∧ prevSelection 0 (some 0) = none
    ∧ ∀ (len : ℕ) (sel : Option ℕ), 0 < len →
        (nextSelection len sel).isSome = true
        ∧ (prevSelection len sel).isSome = true := by
  refine ⟨rfl, rfl, rfl, ?_⟩
  intro len sel hlen
  have h1 : 1 ≤ len := hlen
  constructor
  · cases sel with
    | none => rfl
    | some i => simp [nextSelection, checkedSub, h1]
  · cases sel with
    | none => rfl
    | some i =>
        by_cases h0 : i = 0
        · simp [prevSelection, h0, checkedSub, h1]
        · simp [prevSelection, h0]

/-- Witness for C9: the no-underflow part instantiated on a three-entry
list. -/
theorem empty_list_cursor_underflow_witness :
    0 < 3 ∧ (nextSelection 3 (some 1)).isSome = true
    ∧ (prevSelection 3 (some 1)).isSome = true :=
  ⟨by decide, (empty_list_cursor_underflow.2.2.2 3 (some 1) (by decide)).1,
    (empty_list_cursor_underflow.2.2.2 3 (some 1) (by decide)).2⟩

/-- C10 — Toggling playback while not playing, with a track selected,
raises the playing flag and resets the start instant unconditionally, even
when the engine restart fails: the engine's result is discarded and the
error message is left untouched (no error recorded), unlike failures
during track selection. -/
theorem toggle_restart_discards_error
    (a : App) (decoded : Except String TrackInfo) (now : ℚ)
    (hsel : a.selected_track.isSome = true) (hnp : a.is_playing = false) :
    (a.toggle_playback decoded now).is_playing = true
    ∧ (a.toggle_playback decoded now).playback_start = some now
    ∧ (a.toggle_playback decoded now).error_message = a.error_message := by
  cases hst : a.selected_track with
  | none => rw [hst] at hsel; simp at hsel
  | some t => simp [App.toggle_playback, hst, hnp]

/-- Witness for C10: `idleApp` (track C selected, not playing) toggled with
a failing engine restart. -/
theorem toggle_restart_discards_error_witness :
    idleApp.selected_track.isSome = true ∧ idleApp.is_playing = false
    ∧ ((idleApp.toggle_playback (Except.error "x") 3).is_playing = true
      ∧ (idleApp.toggle_playback (Except.error "x") 3).playback_start
          = some 3
      ∧ (idleApp.toggle_playback (Except.error "x") 3).error_message
          = idleApp.error_message) :=
  ⟨rfl, rfl, toggle_restart_discards_error idleApp (Except.error "x") 3 rfl
    rfl⟩

/-- C6 counterexample — adjacent band edges coincide instead of being
strictly separated: band 0's end frequency equals band 1's start frequency
(both are `60 * (16000/60) ^ (1/32)`), so it is not strictly below it. -/
theorem band_edges_touch :
    freqEnd 32 0 = freqStart 32 1 ∧ ¬ freqEnd 32 0 < freqStart 32 1 := by
  have he : freqEnd 32 0 = freqStart 32 1 := by
    unfold freqEnd freqStart
    norm_num
  exact ⟨he, by rw [he]; exact lt_irrefl _⟩

/-- C6 (amended) — For the 32 log-spaced bands between 60 Hz and 16000 Hz,
every band's start frequency is strictly below its end frequency, and each
band's end frequency EQUALS the next band's start frequency (the bands are
adjacent and non-overlapping; edges are monotone but consecutive edges
touch rather than being strictly separated). -/
theorem band_edges_adjacent_monotone :
    ∀ i : ℕ, freqStart 32 i < freqEnd 32 i
      ∧ freqEnd 32 i = freqStart 32 (i + 1) := by
  intro i
  have hb : (1 : ℝ) < 16000 / 60 := by norm_num
  constructor
  · unfold freqStart freqEnd
    push_cast
    have hx : (i : ℝ) / 32 < ((i : ℝ) + 1) / 32 := by linarith
    have hp := (Real.rpow_lt_rpow_left_iff hb).mpr hx
    exact mul_lt_mul_of_pos_left hp (by norm_num)
  · unfold freqEnd freqStart
    rw [show ((i : ℝ) + 1) = ((i + 1 : ℕ) : ℝ) by push_cast; ring]
